import Mathlib

/-!
Verification of the go-zeolite secure-channel library against its
specification.  The Go sources (zeolite.go, its earlier draft, and the CLI
driver) are shallowly embedded: bytes are `Nat`s (a Go `byte` always holds a
value below 256 and every byte-level operation here reduces modulo 256 where
the Go type system would), machine `uint32` arithmetic is `Nat` arithmetic
with explicit `% 2 ^ 32`, and the fallible libsodium primitives - which the
spec treats as an external vetted library - are abstracted behind records of
operations with their documented length contracts, together with one
executable idealized instance used for concrete runs.
-/

set_option maxRecDepth 10000

namespace Zeolite

/-- The error values declared at the top of zeolite.go
(`ErrInit` .. `ErrDecrypt`). -/
inductive ZErr where
  | ErrInit
  | ErrEOS
  | ErrRecv
  | ErrSend
  | ErrProto
  | ErrKeygen
  | ErrTrust
  | ErrSign
  | ErrVerify
  | ErrEncrypt
  | ErrDecrypt
deriving DecidableEq, Repr

/-- A Go `error` value as seen by callers of the record layer: either one of
the zeolite sentinel errors, or some other error value produced by the
transport (`net.Conn.Write` / `Read` return their own errors, which
`Stream.Send` passes through unchanged). -/
inductive GoError where
  | zeo (e : ZErr)
  | raw (code : Nat)
deriving DecidableEq, Repr

/-- The state `crypto_secretstream_xchacha20poly1305_state`: a value
holding the symmetric key and the internal nonce/counter position.  The
counter is what a push/pull advances. -/
structure SSState where
  key : Nat
  counter : Nat
deriving DecidableEq, Repr

/-- Keystream byte `i` of the idealized stream cipher at a given key and
counter position. -/
def keystream (key ctr i : Nat) : Nat :=
  (key + 1000003 * ctr + 8191 * i + 3) % 256

/-- Idealized XChaCha20 body encryption: XOR each byte with the keystream.
XOR is its own inverse, so this also decrypts. -/
def ssEnc (key ctr : Nat) : Nat → List Nat → List Nat
  | _, [] => []
  | i, b :: bs => (b ^^^ keystream key ctr i) :: ssEnc key ctr (i + 1) bs

/-- Idealized 17-byte authentication tag (Poly1305 tag plus secretstream
framing byte) over the ciphertext body at a key and counter position. -/
def macBytes (key ctr : Nat) (body : List Nat) : List Nat :=
  let h := body.foldl (fun a b => a * 257 + b % 256 + 1) (key * 131 + ctr * 17 + 13)
  (List.range 17).map (fun i => (h / 256 ^ i) % 256)

/-- Idealized `crypto_secretstream_xchacha20poly1305_push`: produces
`len msg + 17` ciphertext bytes and advances the counter.  The real
primitive can also report failure, which the parametric `StreamOps` below
accounts for; the ideal instance always succeeds. -/
def idealPush (st : SSState) (msg : List Nat) : Option (List Nat × SSState) :=
  let body := ssEnc st.key st.counter 0 msg
  some (body ++ macBytes st.key st.counter body, ⟨st.key, st.counter + 1⟩)

/-- Idealized `crypto_secretstream_xchacha20poly1305_pull`: checks the
17-byte tag and, on success, returns the `len c - 17` plaintext bytes and
advances the counter. -/
def idealPull (st : SSState) (c : List Nat) : Option (List Nat × SSState) :=
  if c.length < 17 then none
  else
    let body := c.take (c.length - 17)
    if c.drop (c.length - 17) = macBytes st.key st.counter body then
      some (ssEnc st.key st.counter 0 body, ⟨st.key, st.counter + 1⟩)
    else none

/-- The secretstream primitives used by the record layer, together with
the length contracts documented by libsodium (push writes exactly
`mlen + ABYTES` bytes, pull writes exactly `clen - ABYTES` bytes,
`ABYTES = 17`). -/
structure StreamOps where
  ssPush : SSState → List Nat → Option (List Nat × SSState)
  ssPull : SSState → List Nat → Option (List Nat × SSState)
  push_len : ∀ st m c st2, ssPush st m = some (c, st2) → c.length = m.length + 17
  pull_len : ∀ st c m st2, ssPull st c = some (m, st2) → m.length = c.length - 17

theorem ssEnc_length (key ctr : Nat) : ∀ i l, (ssEnc key ctr i l).length = l.length := by
  intro i l
  induction l generalizing i with
  | nil => rfl
  | cons b bs ih => simp [ssEnc, ih]

theorem nat_xor_xor_cancel (b k : Nat) : (b ^^^ k) ^^^ k = b := by
  rw [Nat.xor_assoc, Nat.xor_self, Nat.xor_zero]

theorem ssEnc_ssEnc (key ctr : Nat) : ∀ i l, ssEnc key ctr i (ssEnc key ctr i l) = l := by
  intro i l
  induction l generalizing i with
  | nil => rfl
  | cons b bs ih => simp [ssEnc, ih, nat_xor_xor_cancel]

theorem macBytes_length (key ctr : Nat) (body : List Nat) :
    (macBytes key ctr body).length = 17 := by
  simp [macBytes]

theorem idealPush_length (st : SSState) (m c : List Nat) (st2 : SSState)
    (h : idealPush st m = some (c, st2)) : c.length = m.length + 17 := by
  simp only [idealPush, Option.some.injEq, Prod.mk.injEq] at h
  rcases h with ⟨hc, _⟩
  subst hc
  simp [ssEnc_length, macBytes_length]

theorem idealPull_length (st : SSState) (c m : List Nat) (st2 : SSState)
    (h : idealPull st c = some (m, st2)) : m.length = c.length - 17 := by
  simp only [idealPull] at h
  split at h
  · exact absurd h (by simp)
  · split at h
    · simp only [Option.some.injEq, Prod.mk.injEq] at h
      rcases h with ⟨hm, _⟩
      subst hm
      rw [ssEnc_length, List.length_take]
      omega
    · exact absurd h (by simp)

/-- Pulling what was pushed from the same state succeeds and returns the
plaintext: the idealized counterpart of secretstream correctness. -/
theorem idealPull_idealPush (st : SSState) (m body mac : List Nat) (st2 : SSState)
    (h : idealPush st m = some (body ++ mac, st2))
    (hb : body = ssEnc st.key st.counter 0 m)
    (hm : mac = macBytes st.key st.counter body) :
    idealPull st (body ++ mac) = some (m, ⟨st.key, st.counter + 1⟩) := by
  have hlen : body.length = m.length := by
    subst hb; exact ssEnc_length st.key st.counter 0 m
  have hmlen : mac.length = 17 := by
    subst hm; exact macBytes_length st.key st.counter body
  have htot : (body ++ mac).length = m.length + 17 := by
    simp [hlen, hmlen]
  have hsub : (body ++ mac).length - 17 = body.length := by omega
  unfold idealPull
  rw [if_neg (by omega), hsub, List.take_left, List.drop_left, if_pos hm]
  subst hb
  rw [ssEnc_ssEnc]

/-- The executable idealized secretstream instance. -/
def idealOps : StreamOps where
  ssPush := idealPush
  ssPull := idealPull
  push_len := idealPush_length
  pull_len := idealPull_length

/-- Go `binary.LittleEndian.PutUint32(buf, uint32(n))`: the low four bytes of
`n` in little-endian order (the `uint32` conversion is the `% 2 ^ 32`
implicit in taking exactly four bytes). -/
def putUint32LE (n : Nat) : List Nat :=
  [n % 256, n / 256 % 256, n / 65536 % 256, n / 16777216 % 256]

/-- Go `binary.LittleEndian.Uint32(buf)`: decode the first four bytes as a
little-endian unsigned 32-bit integer.  Each component is reduced modulo
256 because a Go `byte` holds only its low 8 bits. -/
def decodeUint32LE (l : List Nat) : Nat :=
  l.getD 0 0 % 256 + 256 * (l.getD 1 0 % 256) + 65536 * (l.getD 2 0 % 256)
    + 16777216 * (l.getD 3 0 % 256)

theorem putUint32LE_length (n : Nat) : (putUint32LE n).length = 4 := rfl

theorem decode_putUint32LE (n : Nat) :
    decodeUint32LE (putUint32LE n) = n % 2 ^ 32 := by
  show n % 256 % 256 + 256 * (n / 256 % 256 % 256) + 65536 * (n / 65536 % 256 % 256)
      + 16777216 * (n / 16777216 % 256 % 256) = n % 2 ^ 32
  omega

/-- The model of a `net.Conn`: `Input` is the byte sequence the peer will
deliver (reads consume it in order; a read past the end is an EOF), and
`WriteErrs` scripts the outcome of each successive `Write` call (`none` =
the write fully succeeds; `some e` = the write fails with error `e`). -/
structure Conn where
  Input : List Nat
  WriteErrs : List (Option GoError)
deriving DecidableEq, Repr

/-- Go `io.ReadFull` / `io.CopyN` with an exact length: succeeds only when `k`
bytes are available, returning the chunk and the remaining input. -/
def hsRead (input : List Nat) (k : Nat) : Option (List Nat × List Nat) :=
  if k ≤ input.length then some (input.take k, input.drop k) else none

/-- The `Stream` struct of zeolite.go: the transport, the peer's long-term
public key, and the two secretstream states. -/
structure Stream where
  Conn : Conn
  OtherPK : List Nat
  SendState : SSState
  RecvState : SSState
deriving DecidableEq, Repr

/-- Observable result of one `Stream.Send` call: the chunks fully written
to the transport, the returned `error` (`none` = nil), and the connection
as left behind (its write script consumed). -/
structure SendOut where
  written : List (List Nat)
  result : Option GoError
  connAfter : Conn
deriving DecidableEq, Repr

/-- Decidable equality for `Except` results, needed to evaluate concrete
runs of the record layer. -/
instance exceptDecEq {ε α : Type} [DecidableEq ε] [DecidableEq α] :
    DecidableEq (Except ε α) := fun a b =>
  match a, b with
  | .error e, .error f =>
    if h : e = f then isTrue (by rw [h]) else isFalse (by intro hh; cases hh; exact h rfl)
  | .error _, .ok _ => isFalse (by intro h; cases h)
  | .ok _, .error _ => isFalse (by intro h; cases h)
  | .ok x, .ok y =>
    if h : x = y then isTrue (by rw [h]) else isFalse (by intro hh; cases hh; exact h rfl)

/-- Observable result of one `Stream.Recv` call: the chunks read from the
transport, the returned `([]byte, error)` pair, and the connection as left
behind (its input consumed). -/
structure RecvOut where
  readChunks : List (List Nat)
  result : Except GoError (List Nat)
  connAfter : Conn
deriving DecidableEq, Repr

/-- The method `Stream.Send` of zeolite.go (current draft): allocate
`4 + len(msg) + 17` bytes, put the little-endian `uint32` length into the
first four, secretstream-push the message into the rest, and write the
whole buffer with a single `Conn.Write`.  A push failure yields
`ErrEncrypt`; a write failure returns the transport's own error value.
The receiver is a value, so the advanced push state `st2` is local to the
call and is discarded here, exactly as Go discards the mutated copy. -/
def Stream.Send (ops : StreamOps) (s : Stream) (msg : List Nat) : SendOut :=
  match ops.ssPush s.SendState msg with
  | none => ⟨[], some (.zeo .ErrEncrypt), s.Conn⟩
  | some (c, _st2) =>
    let buf := putUint32LE msg.length ++ c
    match s.Conn.WriteErrs.getD 0 none with
    | some e => ⟨[], some e, ⟨s.Conn.Input, s.Conn.WriteErrs.drop 1⟩⟩
    | none => ⟨[buf], none, ⟨s.Conn.Input, s.Conn.WriteErrs.drop 1⟩⟩

/-- The method `Stream.Send` of the earlier draft (part_001): write the 4-byte length
first, then push and write the `len(msg) + 17` ciphertext as a second
`Conn.Write`.  Write failures again return the transport's own error. -/
def Stream.SendPrev (ops : StreamOps) (s : Stream) (msg : List Nat) : SendOut :=
  let pfx := putUint32LE msg.length
  match s.Conn.WriteErrs.getD 0 none with
  | some e => ⟨[], some e, ⟨s.Conn.Input, s.Conn.WriteErrs.drop 1⟩⟩
  | none =>
    match ops.ssPush s.SendState msg with
    | none => ⟨[pfx], some (.zeo .ErrEncrypt), ⟨s.Conn.Input, s.Conn.WriteErrs.drop 1⟩⟩
    | some (c, _st2) =>
      match s.Conn.WriteErrs.getD 1 none with
      | some e => ⟨[pfx], some e, ⟨s.Conn.Input, s.Conn.WriteErrs.drop 2⟩⟩
      | none => ⟨[pfx, c], none, ⟨s.Conn.Input, s.Conn.WriteErrs.drop 2⟩⟩

/-- The method `Stream.Recv` of zeolite.go (identical in both drafts): read exactly 4
bytes, decode the little-endian `uint32` length `siz`, allocate a
ciphertext buffer of `siz + 17` bytes - `uint32` arithmetic, hence the
`% 2 ^ 32` - and a plaintext buffer of `siz` bytes, read exactly that many
ciphertext bytes, and secretstream-pull.  Any read error becomes
`ErrRecv`; a pull failure becomes `ErrDecrypt`.  As in `Send`, the
receiver is a value and the advanced pull state is discarded. -/
def Stream.Recv (ops : StreamOps) (s : Stream) : RecvOut :=
  match hsRead s.Conn.Input 4 with
  | none => ⟨[], .error (.zeo .ErrRecv), s.Conn⟩
  | some (lenB, rest1) =>
    let siz := decodeUint32LE lenB
    let cLen := (siz + 17) % 2 ^ 32
    match hsRead rest1 cLen with
    | none => ⟨[lenB], .error (.zeo .ErrRecv), ⟨rest1, s.Conn.WriteErrs⟩⟩
    | some (cipher, rest2) =>
      match ops.ssPull s.RecvState cipher with
      | none => ⟨[lenB, cipher], .error (.zeo .ErrDecrypt), ⟨rest2, s.Conn.WriteErrs⟩⟩
      | some (msg, _st2) => ⟨[lenB, cipher], .ok msg, ⟨rest2, s.Conn.WriteErrs⟩⟩

/-- The semantics of a caller executing `err := stream.Send(msg)` in Go.
`Send` is declared with a VALUE receiver (`func (stream Stream) Send`), so
the method operates on a copy of the caller's `Stream`: the secretstream
state advanced inside the call is lost, and the caller's variable is
unchanged afterwards - except that `Conn` is a reference to the external
socket, whose read/write progress does persist across calls. -/
def goSendCall (ops : StreamOps) (s : Stream) (msg : List Nat) : SendOut × Stream :=
  let out := Stream.Send ops s msg
  (out, ⟨out.connAfter, s.OtherPK, s.SendState, s.RecvState⟩)

/-- The caller semantics of `msg, err := stream.Recv()`: as with
`goSendCall`, the value receiver leaves the caller's secretstream states
untouched; only the connection progresses. -/
def goRecvCall (ops : StreamOps) (s : Stream) : RecvOut × Stream :=
  let out := Stream.Recv ops s
  (out, ⟨out.connAfter, s.OtherPK, s.SendState, s.RecvState⟩)

/-- Modelled from the spec: the call semantics the specification describes,
in which "every push/pull advances internal nonce/counter" - i.e. the
advanced send state survives into the caller's `Stream` (a pointer receiver
or threaded state).  Used only to exhibit how the Go value-receiver
semantics diverges from the spec. -/
def specSendCall (ops : StreamOps) (s : Stream) (msg : List Nat) : SendOut × Stream :=
  let out := Stream.Send ops s msg
  match ops.ssPush s.SendState msg with
  | some (_, st2) => (out, ⟨out.connAfter, s.OtherPK, st2, s.RecvState⟩)
  | none => (out, ⟨out.connAfter, s.OtherPK, s.SendState, s.RecvState⟩)

/-- Modelled from the spec: the receiving counterpart of `specSendCall`,
advancing the receive state on a successful pull. -/
def specRecvCall (ops : StreamOps) (s : Stream) : RecvOut × Stream :=
  let out := Stream.Recv ops s
  match out.result with
  | .ok _ =>
    match hsRead s.Conn.Input 4 with
    | none => (out, ⟨out.connAfter, s.OtherPK, s.SendState, s.RecvState⟩)
    | some (lenB, rest1) =>
      match hsRead rest1 ((decodeUint32LE lenB + 17) % 2 ^ 32) with
      | none => (out, ⟨out.connAfter, s.OtherPK, s.SendState, s.RecvState⟩)
      | some (cipher, _) =>
        match ops.ssPull s.RecvState cipher with
        | some (_, st2) => (out, ⟨out.connAfter, s.OtherPK, s.SendState, st2⟩)
        | none => (out, ⟨out.connAfter, s.OtherPK, s.SendState, s.RecvState⟩)
  | .error _ => (out, ⟨out.connAfter, s.OtherPK, s.SendState, s.RecvState⟩)

/-- The handshake events we track, in the order `Identity.NewStream`
performs them: transport writes, transport reads, the trust-predicate
invocation, the ephemeral `crypto_box_keypair` call and the symmetric
`secretstream_keygen`/nonce generation. -/
inductive HsEvent where
  | wrote (chunk : List Nat)
  | readC (chunk : List Nat)
  | trustCall (pk : List Nat)
  | ephKeygen
  | symKeygen
deriving DecidableEq, Repr

/-- Result of a handshake run: the ordered event trace and the returned
`(Stream, error)`. -/
structure HsOut where
  events : List HsEvent
  outcome : Except ZErr Stream
deriving DecidableEq, Repr

/-- The libsodium primitives the handshake uses, abstracted with their
documented length contracts (`crypto_sign` emits `crypto_sign_BYTES = 64`
signature bytes plus the message; `crypto_box_easy` emits
`crypto_box_MACBYTES = 16` plus the message; keys, nonces and headers have
their fixed sizes).  Key generation and the nonce are deterministic fields:
the model fixes one sample of the CSPRNG per handshake. -/
structure CryptoOps where
  boxKeypair : Option (List Nat × List Nat)
  sign : List Nat → List Nat → Option (List Nat)
  signOpen : List Nat → List Nat → Option (List Nat)
  ssKeygen : List Nat
  boxNonce : List Nat
  boxEasy : List Nat → List Nat → List Nat → List Nat → Option (List Nat)
  boxOpenEasy : List Nat → List Nat → List Nat → List Nat → Option (List Nat)
  ssInitPush : List Nat → Option (List Nat × SSState)
  ssInitPull : List Nat → List Nat → Option SSState
  boxKeypair_pk_len : ∀ pk sk, boxKeypair = some (pk, sk) → pk.length = 32
  sign_len : ∀ sk m r, sign sk m = some r → r.length = 64 + m.length
  ssKeygen_len : ssKeygen.length = 32
  boxNonce_len : boxNonce.length = 24
  boxEasy_len : ∀ m n pk sk c, boxEasy m n pk sk = some c → c.length = 16 + m.length
  ssInitPush_len : ∀ k h st, ssInitPush k = some (h, st) → h.length = 24

/-- The constant `Protocol = "zeolite1"`. -/
def Protocol : String := "zeolite1"

/-- The protocol tag as bytes. -/
def protoBytes : List Nat := Protocol.data.map Char.toNat

/-- The long-term Ed25519 identity (`Public` 32 bytes, `Secret` 64 bytes). -/
structure Identity where
  Public : List Nat
  Secret : List Nat
deriving DecidableEq, Repr

/-- The tail of `Identity.NewStream` after the trust predicate accepted:
generate and sign the ephemeral key, exchange the 96-byte signed messages,
exchange the 72-byte nonce-plus-boxed symmetric keys, and exchange the
24-byte secretstream headers, mirroring the Go control flow (each `match`
is one `if err != nil` / primitive-failure check).  `rest2` is the input
remaining after the first 40 bytes were consumed. -/
def hsTail (ops : CryptoOps) (idSec otherPK rest2 : List Nat) : HsOut :=
  match ops.boxKeypair with
  | none => ⟨[.ephKeygen], .error .ErrKeygen⟩
  | some (ephPK, ephSK) =>
    match ops.sign idSec ephPK with
    | none => ⟨[.ephKeygen], .error .ErrSign⟩
    | some ephMsg =>
      match hsRead rest2 96 with
      | none => ⟨[.ephKeygen, .wrote ephMsg], .error .ErrRecv⟩
      | some (otherEphMsg, rest3) =>
        match ops.signOpen otherEphMsg otherPK with
        | none => ⟨[.ephKeygen, .wrote ephMsg, .readC otherEphMsg], .error .ErrVerify⟩
        | some otherEphPK =>
          match ops.boxEasy ops.ssKeygen ops.boxNonce otherEphPK ephSK with
          | none =>
            ⟨[.ephKeygen, .wrote ephMsg, .readC otherEphMsg, .symKeygen], .error .ErrEncrypt⟩
          | some cipher =>
            match hsRead rest3 72 with
            | none =>
              ⟨[.ephKeygen, .wrote ephMsg, .readC otherEphMsg, .symKeygen,
                .wrote (ops.boxNonce ++ cipher)], .error .ErrRecv⟩
            | some (symMsg, rest4) =>
              match ops.boxOpenEasy (symMsg.drop 24) (symMsg.take 24) otherEphPK ephSK with
              | none =>
                ⟨[.ephKeygen, .wrote ephMsg, .readC otherEphMsg, .symKeygen,
                  .wrote (ops.boxNonce ++ cipher), .readC symMsg], .error .ErrDecrypt⟩
              | some recvK =>
                match ops.ssInitPush ops.ssKeygen with
                | none =>
                  ⟨[.ephKeygen, .wrote ephMsg, .readC otherEphMsg, .symKeygen,
                    .wrote (ops.boxNonce ++ cipher), .readC symMsg], .error .ErrEncrypt⟩
                | some (header, sendSt) =>
                  match hsRead rest4 24 with
                  | none =>
                    ⟨[.ephKeygen, .wrote ephMsg, .readC otherEphMsg, .symKeygen,
                      .wrote (ops.boxNonce ++ cipher), .readC symMsg, .wrote header],
                     .error .ErrRecv⟩
                  | some (otherHeader, rest5) =>
                    match ops.ssInitPull otherHeader recvK with
                    | none =>
                      ⟨[.ephKeygen, .wrote ephMsg, .readC otherEphMsg, .symKeygen,
                        .wrote (ops.boxNonce ++ cipher), .readC symMsg, .wrote header,
                        .readC otherHeader], .error .ErrDecrypt⟩
                    | some recvSt =>
                      ⟨[.ephKeygen, .wrote ephMsg, .readC otherEphMsg, .symKeygen,
                        .wrote (ops.boxNonce ++ cipher), .readC symMsg, .wrote header,
                        .readC otherHeader],
                       .ok ⟨⟨rest5, []⟩, otherPK, sendSt, recvSt⟩⟩

/-- The method `Identity.NewStream`: the six-phase mirrored handshake of zeolite.go.
The model feeds reads from `input` (the bytes the peer sends, in order) and
treats transport writes as succeeding; every exact-length read that runs
out of input fails with `ErrRecv` exactly where the Go code checks
`io.CopyN` / `io.ReadFull` errors.  Phase 1 writes and checks the protocol
tag, phase 2 exchanges long-term public keys, then the trust predicate is
consulted once; `cb` returns Go's `(bool, error)` pair and
`err != nil || !trust` aborts with `ErrTrust`. -/
def Identity.NewStream (ops : CryptoOps) (id : Identity)
    (cb : List Nat → Bool × Option GoError) (input : List Nat) : HsOut :=
  match hsRead input 8 with
  | none => ⟨[.wrote protoBytes], .error .ErrRecv⟩
  | some (got, rest1) =>
    if got = protoBytes then
      match hsRead rest1 32 with
      | none => ⟨[.wrote protoBytes, .readC got, .wrote id.Public], .error .ErrRecv⟩
      | some (opk, rest2) =>
        let t := cb opk
        if t.2.isNone ∧ t.1 = true then
          let tl := hsTail ops id.Secret opk rest2
          ⟨[.wrote protoBytes, .readC got, .wrote id.Public, .readC opk,
            .trustCall opk] ++ tl.events, tl.outcome⟩
        else
          ⟨[.wrote protoBytes, .readC got, .wrote id.Public, .readC opk,
            .trustCall opk], .error .ErrTrust⟩
    else ⟨[.wrote protoBytes, .readC got], .error .ErrProto⟩

/-- The chunks written to the transport, in order, during a handshake. -/
def writtenOf (evs : List HsEvent) : List (List Nat) :=
  evs.filterMap (fun e => match e with | .wrote c => some c | _ => none)

/-- The chunks read from the transport, in order, during a handshake. -/
def readOf (evs : List HsEvent) : List (List Nat) :=
  evs.filterMap (fun e => match e with | .readC c => some c | _ => none)

/-- How many times the trust predicate was invoked. -/
def trustCallCount (evs : List HsEvent) : Nat :=
  evs.countP (fun e => match e with | .trustCall _ => true | _ => false)

/-- A concrete, always-succeeding instance of the handshake primitives,
used to run the handshake on concrete inputs. -/
def trivialOps : CryptoOps where
  boxKeypair := some (List.replicate 32 1, List.replicate 32 2)
  sign := fun _sk m => some (List.replicate 64 0 ++ m)
  signOpen := fun m _pk => some (m.drop 64)
  ssKeygen := List.replicate 32 4
  boxNonce := List.replicate 24 3
  boxEasy := fun m _n _pk _sk => some (List.replicate 16 0 ++ m)
  boxOpenEasy := fun c _n _pk _sk => some (c.drop 16)
  ssInitPush := fun _k => some (List.replicate 24 5, ⟨0, 0⟩)
  ssInitPull := fun _h _k => some ⟨0, 0⟩
  boxKeypair_pk_len := by intro pk sk h; simp only [Option.some.injEq, Prod.mk.injEq] at h; rw [← h.1]; rfl
  sign_len := by
    intro sk m r h; simp only [Option.some.injEq] at h
    rw [← h, List.length_append, List.length_replicate]
  ssKeygen_len := rfl
  boxNonce_len := rfl
  boxEasy_len := by
    intro m n pk sk c h; simp only [Option.some.injEq] at h
    rw [← h, List.length_append, List.length_replicate]
  ssInitPush_len := by intro k h st hh; simp only [Option.some.injEq, Prod.mk.injEq] at hh; rw [← hh.1]; rfl

/-- A trust predicate accepting any peer (the `-k` behaviour). -/
def cbAll : List Nat → Bool × Option GoError := fun _ => (true, none)

/-- A concrete identity for concrete runs. -/
def idEx : Identity := ⟨List.replicate 32 7, List.replicate 64 8⟩

/-- A 232-byte peer input on which `trivialOps` completes the handshake. -/
def inputEx : List Nat := protoBytes ++ List.replicate 224 9

theorem hsRead_of_le (input : List Nat) (k : Nat) (h : k ≤ input.length) :
    hsRead input k = some (input.take k, input.drop k) := by
  unfold hsRead
  rw [if_pos h]

theorem hsRead_of_lt (input : List Nat) (k : Nat) (h : input.length < k) :
    hsRead input k = none := by
  unfold hsRead
  rw [if_neg (by omega)]

theorem hsRead_append (a b : List Nat) (k : Nat) (h : a.length = k) :
    hsRead (a ++ b) k = some (a, b) := by
  unfold hsRead
  rw [if_pos (by rw [List.length_append]; omega)]
  rw [← h, List.take_left, List.drop_left]

theorem hsRead_exact (a : List Nat) (k : Nat) (h : a.length = k) :
    hsRead a k = some (a, []) := by
  unfold hsRead
  rw [if_pos (by omega), ← h, List.take_length, List.drop_length]

theorem hsRead_eq_some (input : List Nat) (k : Nat) (a b : List Nat)
    (h : hsRead input k = some (a, b)) :
    a = input.take k ∧ b = input.drop k ∧ k ≤ input.length := by
  unfold hsRead at h
  split at h
  · simp only [Option.some.injEq, Prod.mk.injEq] at h
    exact ⟨h.1.symm, h.2.symm, by omega⟩
  · cases h

/-- Claim C6 (corrected).  The complete failure taxonomy of `Stream.Send`,
in both drafts: a secretstream push failure yields `ErrEncrypt`, and a
failing transport write makes `Send` return the transport's own error value
unchanged - the code does `return err`, not `return ErrSend` - so the
`Send` kind is never produced by the record layer.  These are the only
failure outcomes. -/
theorem send_error_taxonomy (ops : StreamOps) (s : Stream) (msg : List Nat) :
    (Stream.Send ops s msg).result
      = (match ops.ssPush s.SendState msg with
         | none => some (GoError.zeo ZErr.ErrEncrypt)
         | some _ => s.Conn.WriteErrs.getD 0 none)
    ∧ (Stream.SendPrev ops s msg).result
      = (match s.Conn.WriteErrs.getD 0 none with
         | some e => some e
         | none =>
           match ops.ssPush s.SendState msg with
           | none => some (GoError.zeo ZErr.ErrEncrypt)
           | some _ => s.Conn.WriteErrs.getD 1 none) := by
  constructor
  · cases hp : ops.ssPush s.SendState msg with
    | none => simp [Stream.Send, hp]
    | some p =>
      obtain ⟨c, st2⟩ := p
      cases hw : s.Conn.WriteErrs[0]?.getD none with
      | none => simp [Stream.Send, hp, hw]
      | some e => simp [Stream.Send, hp, hw]
  · cases hw : s.Conn.WriteErrs[0]?.getD none with
    | some e => simp [Stream.SendPrev, hw]
    | none =>
      cases hp : ops.ssPush s.SendState msg with
      | none => simp [Stream.SendPrev, hp, hw]
      | some p =>
        obtain ⟨c, st2⟩ := p
        cases hw1 : s.Conn.WriteErrs[1]?.getD none with
        | none => simp [Stream.SendPrev, hp, hw, hw1]
        | some e => simp [Stream.SendPrev, hp, hw, hw1]

/-- A stream whose transport rejects the next write with a non-zeolite
transport error. -/
def sWr : Stream := ⟨⟨[], [some (GoError.raw 7)]⟩, [], ⟨0, 0⟩, ⟨0, 0⟩⟩

/-- Claim C6, counterexample: when the transport write fails, `Stream.Send`
returns the transport's raw error, not the `ErrSend` sentinel the claim
names. -/
theorem send_raw_error_cx :
    (Stream.Send idealOps sWr [1]).result = some (GoError.raw 7)
    ∧ (Stream.Send idealOps sWr [1]).result ≠ some (GoError.zeo ZErr.ErrSend) := by
  decide

/-- Claim C7 (corrected).  Every transport shortfall in `Stream.Recv` is
reported as `ErrRecv`: a clean EOF during the initial 4-byte length read
(fewer than 4 bytes available, including zero) and an EOF mid-frame
(fewer than `(n + 17) % 2 ^ 32` ciphertext bytes available) alike.
`ErrEOS` is declared in the source but `Recv` never returns it. -/
theorem recv_error_kinds (ops : StreamOps) (s : Stream) :
    (s.Conn.Input.length < 4 → (Stream.Recv ops s).result = .error (.zeo .ErrRecv))
    ∧ (4 ≤ s.Conn.Input.length →
       s.Conn.Input.length
         < 4 + (decodeUint32LE (s.Conn.Input.take 4) + 17) % 2 ^ 32 →
       (Stream.Recv ops s).result = .error (.zeo .ErrRecv)) := by
  constructor
  · intro h
    unfold Stream.Recv
    rw [hsRead_of_lt s.Conn.Input 4 h]
  · intro h4 hlt
    unfold Stream.Recv
    rw [hsRead_of_le s.Conn.Input 4 h4]
    have hdrop : (s.Conn.Input.drop 4).length
        < (decodeUint32LE (s.Conn.Input.take 4) + 17) % 2 ^ 32 := by
      rw [List.length_drop]
      omega
    simp only []
    rw [hsRead_of_lt _ _ hdrop]

/-- An empty transport: a clean EOF before the length even arrives. -/
def sEof : Stream := ⟨⟨[], []⟩, [], ⟨0, 0⟩, ⟨0, 0⟩⟩

/-- A transport announcing a 5-byte frame (22 ciphertext bytes expected)
but delivering only 2 of them: an EOF mid-frame. -/
def sMid : Stream := ⟨⟨[5, 0, 0, 0, 1, 2], []⟩, [], ⟨0, 0⟩, ⟨0, 0⟩⟩

/-- Claim C7, counterexample: a clean EOF during the 4-byte length read
yields `ErrRecv`, not the `ErrEOS` the claim states. -/
theorem recv_eof_not_eos_cx :
    (Stream.Recv idealOps sEof).result = .error (.zeo .ErrRecv)
    ∧ (Stream.Recv idealOps sEof).result ≠ .error (.zeo .ErrEOS) := by
  decide

/-- Claim C7, witness for the amended statement, at an empty transport and
at a mid-frame truncation. -/
theorem recv_error_kinds_witness :
    (Stream.Recv idealOps sEof).result = .error (.zeo .ErrRecv)
    ∧ (Stream.Recv idealOps sMid).result = .error (.zeo .ErrRecv) :=
  ⟨(recv_error_kinds idealOps sEof).1 (by decide),
   (recv_error_kinds idealOps sMid).2 (by decide) (by decide)⟩

/-- Claim C8 (confirmed).  For a message of length `n`, `Stream.Send`
writes exactly `4 + n + 17` bytes: the 4-byte little-endian `uint32`
length followed by the `n + 17` bytes the secretstream push produced,
all written before `Send` returns - as one single chunk in the current
draft, and as the same bytes in two chunks in the earlier draft. -/
theorem send_frame_layout (ops : StreamOps) (s : Stream) (msg c : List Nat)
    (st2 : SSState)
    (hp : ops.ssPush s.SendState msg = some (c, st2))
    (hw : s.Conn.WriteErrs = []) :
    (Stream.Send ops s msg).written = [putUint32LE msg.length ++ c]
    ∧ (putUint32LE msg.length).length = 4
    ∧ c.length = msg.length + 17
    ∧ ((Stream.Send ops s msg).written.flatten).length = 4 + (msg.length + 17)
    ∧ (Stream.Send ops s msg).result = none
    ∧ (Stream.SendPrev ops s msg).written = [putUint32LE msg.length, c]
    ∧ (Stream.SendPrev ops s msg).result = none := by
  have hc := ops.push_len s.SendState msg c st2 hp
  have hsend : Stream.Send ops s msg
      = ⟨[putUint32LE msg.length ++ c], none, ⟨s.Conn.Input, s.Conn.WriteErrs.drop 1⟩⟩ := by
    simp [Stream.Send, hp, hw]
  have hprev : Stream.SendPrev ops s msg
      = ⟨[putUint32LE msg.length, c], none, ⟨s.Conn.Input, s.Conn.WriteErrs.drop 2⟩⟩ := by
    simp [Stream.SendPrev, hp, hw]
  refine ⟨by rw [hsend], putUint32LE_length msg.length, hc, ?_, by rw [hsend], by rw [hprev], by rw [hprev]⟩
  rw [hsend]
  simp [putUint32LE_length, hc]

/-- A fresh stream on an idle transport, used for concrete send runs. -/
def sFresh : Stream := ⟨⟨[], []⟩, [], ⟨0, 0⟩, ⟨0, 0⟩⟩

/-- The ideal ciphertext for the message `[1, 2]` at the fresh state. -/
def cEx : List Nat := ssEnc 0 0 0 [1, 2] ++ macBytes 0 0 (ssEnc 0 0 0 [1, 2])

/-- Claim C8, witness at the concrete message `[1, 2]`. -/
theorem send_frame_layout_witness :
    idealOps.ssPush sFresh.SendState [1, 2] = some (cEx, ⟨0, 1⟩)
    ∧ (Stream.Send idealOps sFresh [1, 2]).written
        = [putUint32LE ([1, 2] : List Nat).length ++ cEx]
    ∧ ((Stream.Send idealOps sFresh [1, 2]).written.flatten).length
        = 4 + (([1, 2] : List Nat).length + 17) :=
  ⟨by decide,
   (send_frame_layout idealOps sFresh [1, 2] cEx ⟨0, 1⟩ (by decide) rfl).1,
   (send_frame_layout idealOps sFresh [1, 2] cEx ⟨0, 1⟩ (by decide) rfl).2.2.2.1⟩

/-- Claim C9 (corrected).  `Recv` decodes `n` from the 4-byte prefix and
then allocates and exactly fills a ciphertext buffer of
`(n + 17) % 2 ^ 32` bytes - the addition `siz + ABYTES` is `uint32`
arithmetic and wraps - along with an `n`-byte plaintext buffer.  Only for
`n ≤ 2 ^ 32 - 18` does the ciphertext buffer have the claimed `n + 17`
bytes; each successfully pulled plaintext has the buffer's implied
length. -/
theorem recv_alloc_read (ops : StreamOps) (s : Stream) (n cLen : Nat)
    (hn : n = decodeUint32LE (s.Conn.Input.take 4))
    (hc : cLen = (n + 17) % 2 ^ 32)
    (hin : 4 + cLen ≤ s.Conn.Input.length) :
    (Stream.Recv ops s).readChunks
      = [s.Conn.Input.take 4, (s.Conn.Input.drop 4).take cLen]
    ∧ (n + 17 < 2 ^ 32 → ((Stream.Recv ops s).readChunks.getD 1 []).length = n + 17)
    ∧ (∀ m, (Stream.Recv ops s).result = .ok m → m.length = cLen - 17) := by
  have h4 : 4 ≤ s.Conn.Input.length := by omega
  have hlen2 : cLen ≤ (s.Conn.Input.drop 4).length := by
    rw [List.length_drop]; omega
  have hcl : ((s.Conn.Input.drop 4).take cLen).length = cLen := by
    rw [List.length_take]; omega
  have hrecv : ∀ r, Stream.Recv ops s = r →
      r.readChunks = [s.Conn.Input.take 4, (s.Conn.Input.drop 4).take cLen]
      ∧ (∀ m, r.result = .ok m → m.length = cLen - 17) := by
    intro r hr
    unfold Stream.Recv at hr
    rw [hsRead_of_le s.Conn.Input 4 h4] at hr
    simp only [← hn, ← hc] at hr
    rw [hsRead_of_le _ cLen hlen2] at hr
    simp only [] at hr
    cases hpull : ops.ssPull s.RecvState ((s.Conn.Input.drop 4).take cLen) with
    | none =>
      rw [hpull] at hr
      subst hr
      exact ⟨rfl, by intro m hm; cases hm⟩
    | some p =>
      obtain ⟨m0, st2⟩ := p
      rw [hpull] at hr
      subst hr
      refine ⟨rfl, ?_⟩
      intro m hm
      simp only [Except.ok.injEq] at hm
      subst hm
      have := ops.pull_len s.RecvState _ m0 st2 hpull
      rw [hcl] at this
      exact this
  obtain ⟨hchunks, hok⟩ := hrecv (Stream.Recv ops s) rfl
  refine ⟨hchunks, ?_, hok⟩
  intro hsmall
  rw [hchunks]
  have : cLen = n + 17 := by rw [hc, Nat.mod_eq_of_lt hsmall]
  show ((s.Conn.Input.drop 4).take cLen).length = n + 17
  rw [hcl, this]

/-- A transport carrying a complete 2-byte frame (length prefix plus 19
ciphertext bytes). -/
def sTwo : Stream := ⟨⟨[2, 0, 0, 0] ++ List.replicate 19 1, []⟩, [], ⟨0, 0⟩, ⟨0, 0⟩⟩

/-- Claim C9, witness for the amended statement at `n = 2`. -/
theorem recv_alloc_read_witness :
    (Stream.Recv idealOps sTwo).readChunks
      = [sTwo.Conn.Input.take 4, (sTwo.Conn.Input.drop 4).take 19]
    ∧ (2 + 17 < 2 ^ 32 → ((Stream.Recv idealOps sTwo).readChunks.getD 1 []).length = 2 + 17)
    ∧ (∀ m, (Stream.Recv idealOps sTwo).result = .ok m → m.length = 19 - 17) :=
  recv_alloc_read idealOps sTwo 2 19 (by decide) (by decide) (by decide)

/-- A transport announcing the maximal frame length `n = 2 ^ 32 - 1`,
followed by 16 bytes. -/
def sWrap : Stream :=
  ⟨⟨[255, 255, 255, 255] ++ List.replicate 16 0, []⟩, [], ⟨0, 0⟩, ⟨0, 0⟩⟩

/-- Claim C9, counterexample: with `n = 2 ^ 32 - 1` decoded from the
prefix, the `uint32` sum `n + 17` wraps to 16, so `Recv` allocates and
reads a 16-byte ciphertext buffer, not the claimed `n + 17` bytes. -/
theorem recv_alloc_wrap_cx :
    decodeUint32LE (sWrap.Conn.Input.take 4) = 2 ^ 32 - 1
    ∧ (Stream.Recv idealOps sWrap).readChunks
        = [[255, 255, 255, 255], List.replicate 16 0]
    ∧ ((List.replicate 16 0 : List Nat).length ≠ (2 ^ 32 - 1) + 17) := by
  refine ⟨by decide, by decide, ?_⟩
  simp only [List.length_replicate]
  omega

/-- Claim C10 (confirmed).  The length prefix `Stream.Send` writes is
`uint32(len(msg))`, i.e. `len(msg) % 2 ^ 32` in little-endian bytes; a
message of length `2 ^ 32` or more is framed - `Send` still returns nil -
with a prefix strictly smaller than its actual length. -/
theorem send_len_truncated (ops : StreamOps) (s : Stream) (msg c : List Nat)
    (st2 : SSState)
    (hp : ops.ssPush s.SendState msg = some (c, st2))
    (hw : s.Conn.WriteErrs = []) :
    ((Stream.Send ops s msg).written.flatten).take 4 = putUint32LE msg.length
    ∧ decodeUint32LE (putUint32LE msg.length) = msg.length % 2 ^ 32
    ∧ (2 ^ 32 ≤ msg.length → msg.length % 2 ^ 32 < msg.length)
    ∧ (Stream.Send ops s msg).result = none := by
  have hsend : Stream.Send ops s msg
      = ⟨[putUint32LE msg.length ++ c], none, ⟨s.Conn.Input, s.Conn.WriteErrs.drop 1⟩⟩ := by
    simp [Stream.Send, hp, hw]
  refine ⟨?_, decode_putUint32LE msg.length, ?_, by rw [hsend]⟩
  · rw [hsend]
    show ((putUint32LE msg.length ++ c) ++ []).take 4 = putUint32LE msg.length
    rw [List.append_nil, ← putUint32LE_length msg.length, List.take_left]
  · intro hbig
    have hm : msg.length % 2 ^ 32 < 2 ^ 32 := Nat.mod_lt _ (by norm_num)
    omega

/-- Claim C10, witness at the concrete message `[1, 2]`. -/
theorem send_len_truncated_witness :
    ((Stream.Send idealOps sFresh [1, 2]).written.flatten).take 4
      = putUint32LE ([1, 2] : List Nat).length
    ∧ decodeUint32LE (putUint32LE ([1, 2] : List Nat).length)
      = ([1, 2] : List Nat).length % 2 ^ 32 :=
  ⟨(send_len_truncated idealOps sFresh [1, 2] cEx ⟨0, 1⟩ (by decide) rfl).1,
   (send_len_truncated idealOps sFresh [1, 2] cEx ⟨0, 1⟩ (by decide) rfl).2.1⟩

/-- Claim C1 (corrected).  Over a connected pair - the receiver's pull
state equal to the sender's push state, the wire delivering exactly the
bytes `Send` wrote - `Recv` returns exactly the plaintext that was sent,
empty messages included, provided the frame arithmetic does not wrap:
`len(msg) + 17 < 2 ^ 32`. -/
theorem stream_roundtrip (sA sB : Stream) (msg : List Nat)
    (hw : sA.Conn.WriteErrs = [])
    (hst : sB.RecvState = sA.SendState)
    (hin : sB.Conn.Input = ((Stream.Send idealOps sA msg).written).flatten)
    (hlen : msg.length + 17 < 2 ^ 32) :
    (Stream.Recv idealOps sB).result = .ok msg := by
  have hpush : idealOps.ssPush sA.SendState msg
      = some (ssEnc sA.SendState.key sA.SendState.counter 0 msg
            ++ macBytes sA.SendState.key sA.SendState.counter
                 (ssEnc sA.SendState.key sA.SendState.counter 0 msg),
          ⟨sA.SendState.key, sA.SendState.counter + 1⟩) := rfl
  have hbl : (ssEnc sA.SendState.key sA.SendState.counter 0 msg).length = msg.length :=
    ssEnc_length _ _ _ _
  have hml : (macBytes sA.SendState.key sA.SendState.counter
      (ssEnc sA.SendState.key sA.SendState.counter 0 msg)).length = 17 :=
    macBytes_length _ _ _
  have hwire : ((Stream.Send idealOps sA msg).written).flatten
      = putUint32LE msg.length
        ++ (ssEnc sA.SendState.key sA.SendState.counter 0 msg
            ++ macBytes sA.SendState.key sA.SendState.counter
                 (ssEnc sA.SendState.key sA.SendState.counter 0 msg)) := by
    simp [Stream.Send, hpush, hw]
  rw [hwire] at hin
  unfold Stream.Recv
  rw [hin, hsRead_append (putUint32LE msg.length) _ 4 (putUint32LE_length msg.length)]
  simp only [decode_putUint32LE]
  have h1 : msg.length % 2 ^ 32 = msg.length := Nat.mod_eq_of_lt (by omega)
  rw [h1, Nat.mod_eq_of_lt hlen,
    hsRead_exact _ _ (by rw [List.length_append, hbl, hml]), hst]
  have hpull := idealPull_idealPush sA.SendState msg
    (ssEnc sA.SendState.key sA.SendState.counter 0 msg)
    (macBytes sA.SendState.key sA.SendState.counter
      (ssEnc sA.SendState.key sA.SendState.counter 0 msg))
    ⟨sA.SendState.key, sA.SendState.counter + 1⟩ hpush rfl rfl
  show (match idealOps.ssPull sA.SendState
      (ssEnc sA.SendState.key sA.SendState.counter 0 msg
        ++ macBytes sA.SendState.key sA.SendState.counter
             (ssEnc sA.SendState.key sA.SendState.counter 0 msg)) with
    | none => (⟨_, .error (.zeo .ErrDecrypt), _⟩ : RecvOut)
    | some (m, _st2) => ⟨_, .ok m, _⟩).result = .ok msg
  rw [show idealOps.ssPull = idealPull from rfl, hpull]

/-- A sender mid-session (states advanced to counter 3). -/
def sA1 : Stream := ⟨⟨[], []⟩, [], ⟨5, 3⟩, ⟨0, 0⟩⟩

/-- The matched receiver for `sA1`, its transport carrying the frame
`sA1` sent for `[1, 2, 3]`. -/
def sB1 : Stream :=
  ⟨⟨((Stream.Send idealOps sA1 [1, 2, 3]).written).flatten, []⟩, [], ⟨0, 0⟩, ⟨5, 3⟩⟩

/-- The matched receiver for a fresh sender's empty-message frame. -/
def sB0 : Stream :=
  ⟨⟨((Stream.Send idealOps sFresh []).written).flatten, []⟩, [], ⟨0, 0⟩, ⟨0, 0⟩⟩

/-- Claim C1, witness: the roundtrip at the concrete message `[1, 2, 3]`
and at the empty message. -/
theorem stream_roundtrip_witness :
    (Stream.Recv idealOps sB1).result = .ok [1, 2, 3]
    ∧ (Stream.Recv idealOps sB0).result = .ok [] :=
  ⟨stream_roundtrip sA1 sB1 [1, 2, 3] rfl rfl rfl (by norm_num),
   stream_roundtrip sFresh sB0 [] rfl rfl rfl (by norm_num)⟩

/-- The shortest message length at which the `uint32` frame arithmetic of
`Recv` wraps. -/
def bigMsg : List Nat := List.replicate (2 ^ 32 - 17) 0

/-- The matched receiver for a fresh sender's `bigMsg` frame. -/
def sBigB : Stream :=
  ⟨⟨((Stream.Send idealOps sFresh bigMsg).written).flatten, []⟩, [], ⟨0, 0⟩, ⟨0, 0⟩⟩

/-- On a frame whose announced length makes the `uint32` sum `n + 17`
wrap to zero, `Recv` reads an empty ciphertext and the pull fails, so the
result is `ErrDecrypt`. -/
theorem recv_wrap_decrypt (ops : StreamOps) (s : Stream) (n : Nat)
    (hops : ∀ st, ops.ssPull st [] = none)
    (hn4 : s.Conn.Input.take 4 = putUint32LE n)
    (hnlt : n < 2 ^ 32) (hwrap : (n + 17) % 2 ^ 32 = 0)
    (hlen : 4 ≤ s.Conn.Input.length) :
    (Stream.Recv ops s).result = .error (.zeo .ErrDecrypt) := by
  unfold Stream.Recv
  rw [hsRead_of_le _ 4 hlen]
  simp only []
  rw [hn4, decode_putUint32LE, Nat.mod_eq_of_lt hnlt, hwrap,
    hsRead_of_le _ 0 (Nat.zero_le _)]
  simp only [List.take_zero]
  rw [hops]

/-- Claim C1, counterexample: for the `(2 ^ 32 - 17)`-byte plaintext, the
receiver decodes the length correctly but the `uint32` sum `n + 17` wraps
to 0, so `Recv` reads a 0-byte ciphertext and fails with `ErrDecrypt`
instead of returning the plaintext: the roundtrip does not hold for every
plaintext. -/
theorem roundtrip_wrap_cx :
    (Stream.Recv idealOps sBigB).result = .error (.zeo .ErrDecrypt)
    ∧ (Stream.Recv idealOps sBigB).result ≠ .ok bigMsg := by
  have hb : bigMsg.length = 2 ^ 32 - 17 := List.length_replicate _ _
  have hpush : idealOps.ssPush (⟨0, 0⟩ : SSState) bigMsg
      = some (ssEnc 0 0 0 bigMsg ++ macBytes 0 0 (ssEnc 0 0 0 bigMsg), ⟨0, 1⟩) := rfl
  have hwire : ((Stream.Send idealOps sFresh bigMsg).written).flatten
      = putUint32LE bigMsg.length
        ++ (ssEnc 0 0 0 bigMsg ++ macBytes 0 0 (ssEnc 0 0 0 bigMsg)) := by
    simp [Stream.Send, hpush, sFresh]
  have hinp : sBigB.Conn.Input
      = ((Stream.Send idealOps sFresh bigMsg).written).flatten := rfl
  have hres : (Stream.Recv idealOps sBigB).result = .error (.zeo .ErrDecrypt) := by
    refine recv_wrap_decrypt idealOps sBigB (2 ^ 32 - 17) (fun st => rfl) ?_ (by omega)
      (by omega) ?_
    · rw [hinp, hwire, hb, ← putUint32LE_length (2 ^ 32 - 17), List.take_left]
    · rw [hinp, hwire, List.length_append, putUint32LE_length]
      omega
  exact ⟨hres, by rw [hres]; intro h; cases h⟩

/-- A frame whose ciphertext is garbage: a valid 4-byte length prefix
announcing 1 plaintext byte, followed by 18 bytes that fail the tag
check. -/
def badFrame : List Nat := putUint32LE 1 ++ List.replicate 18 0

/-- The frame a fresh sender produces for the message `[5]`. -/
def goodFrame : List Nat := ((Stream.Send idealOps sFresh [5]).written).flatten

/-- A receiver whose transport delivers the garbage frame first and the
valid fresh-state frame second. -/
def sSeq : Stream := ⟨⟨badFrame ++ goodFrame, []⟩, [], ⟨0, 0⟩, ⟨0, 0⟩⟩

/-- Claim C2 (code bug).  Because `Send` and `Recv` take the `Stream` by
value, the secretstream states stored in the caller's `Stream` never
advance: two successive `Send` calls on the same stream emit bit-identical
frames and leave the send state at its initial counter, where the
spec-mandated threaded-state semantics (`specSendCall`) emits two
different frames and reaches counter 2; and after a `Recv` that fails
with `ErrDecrypt`, the very next `Recv` on the same stream still decodes
a following valid frame, contradicting the claimed poisoning of the
direction. -/
theorem value_receiver_freezes_state :
    (goSendCall idealOps sFresh [1]).1.written
      = (goSendCall idealOps (goSendCall idealOps sFresh [1]).2 [1]).1.written
    ∧ (goSendCall idealOps (goSendCall idealOps sFresh [1]).2 [1]).2.SendState
      = sFresh.SendState
    ∧ (specSendCall idealOps sFresh [1]).1.written
      ≠ (specSendCall idealOps (specSendCall idealOps sFresh [1]).2 [1]).1.written
    ∧ (specSendCall idealOps (specSendCall idealOps sFresh [1]).2 [1]).2.SendState.counter
      = 2
    ∧ (goRecvCall idealOps sSeq).1.result = .error (.zeo .ErrDecrypt)
    ∧ (goRecvCall idealOps (goRecvCall idealOps sSeq).2).1.result = .ok [5] := by
  decide

theorem hsTail_no_trust (ops : CryptoOps) (idSec opk r2 : List Nat) :
    trustCallCount (hsTail ops idSec opk r2).events = 0 := by
  unfold hsTail
  repeat' split
  all_goals simp [trustCallCount]

theorem hsTail_ok_events (ops : CryptoOps) (idSec opk r2 : List Nat) (st : Stream)
    (h : (hsTail ops idSec opk r2).outcome = .ok st) :
    ∃ ephMsg cipher header,
      (hsTail ops idSec opk r2).events
        = [.ephKeygen, .wrote ephMsg, .readC (r2.take 96), .symKeygen,
           .wrote (ops.boxNonce ++ cipher), .readC ((r2.drop 96).take 72),
           .wrote header, .readC (((r2.drop 96).drop 72).take 24)]
      ∧ ephMsg.length = 96
      ∧ (ops.boxNonce ++ cipher).length = 72
      ∧ header.length = 24
      ∧ 192 ≤ r2.length := by
  cases hbk : ops.boxKeypair with
  | none => simp only [hsTail, hbk] at h; cases h
  | some pk_sk =>
    obtain ⟨ephPK, ephSK⟩ := pk_sk
    cases hsg : ops.sign idSec ephPK with
    | none => simp only [hsTail, hbk, hsg] at h; cases h
    | some ephMsg =>
      cases h96 : hsRead r2 96 with
      | none => simp only [hsTail, hbk, hsg, h96] at h; cases h
      | some p96 =>
        obtain ⟨otherEphMsg, rest3⟩ := p96
        cases hso : ops.signOpen otherEphMsg opk with
        | none => simp only [hsTail, hbk, hsg, h96, hso] at h; cases h
        | some otherEphPK =>
          cases hbe : ops.boxEasy ops.ssKeygen ops.boxNonce otherEphPK ephSK with
          | none => simp only [hsTail, hbk, hsg, h96, hso, hbe] at h; cases h
          | some cipher =>
            cases h72 : hsRead rest3 72 with
            | none => simp only [hsTail, hbk, hsg, h96, hso, hbe, h72] at h; cases h
            | some p72 =>
              obtain ⟨symMsg, rest4⟩ := p72
              cases hbo : ops.boxOpenEasy (symMsg.drop 24) (symMsg.take 24) otherEphPK ephSK with
              | none =>
                simp only [hsTail, hbk, hsg, h96, hso, hbe, h72, hbo] at h; cases h
              | some recvK =>
                cases hip : ops.ssInitPush ops.ssKeygen with
                | none =>
                  simp only [hsTail, hbk, hsg, h96, hso, hbe, h72, hbo, hip] at h
                  cases h
                | some hdr_st =>
                  obtain ⟨header, sendSt⟩ := hdr_st
                  cases h24 : hsRead rest4 24 with
                  | none =>
                    simp only [hsTail, hbk, hsg, h96, hso, hbe, h72, hbo, hip, h24] at h
                    cases h
                  | some p24 =>
                    obtain ⟨otherHeader, rest5⟩ := p24
                    cases hipl : ops.ssInitPull otherHeader recvK with
                    | none =>
                      simp only [hsTail, hbk, hsg, h96, hso, hbe, h72, hbo, hip, h24,
                        hipl] at h
                      cases h
                    | some recvSt =>
                      obtain ⟨ho96, hr3, hl96⟩ := hsRead_eq_some r2 96 otherEphMsg rest3 h96
                      obtain ⟨ho72, hr4, hl72⟩ := hsRead_eq_some rest3 72 symMsg rest4 h72
                      obtain ⟨ho24, hr5, hl24⟩ := hsRead_eq_some rest4 24 otherHeader rest5 h24
                      refine ⟨ephMsg, cipher, header, ?_, ?_, ?_, ?_, ?_⟩
                      · simp only [hsTail, hbk, hsg, h96, hso, hbe, h72, hbo, hip, h24, hipl]
                        rw [ho96, ho72, ho24, hr3, hr4, hr3]
                      · have hpk := ops.boxKeypair_pk_len ephPK ephSK hbk
                        have := ops.sign_len idSec ephPK ephMsg hsg
                        omega
                      · have hck := ops.ssKeygen_len
                        have := ops.boxEasy_len ops.ssKeygen ops.boxNonce otherEphPK ephSK
                          cipher hbe
                        rw [List.length_append, ops.boxNonce_len]
                        omega
                      · exact ops.ssInitPush_len ops.ssKeygen header sendSt hip
                      · rw [hr3] at hl72
                        rw [hr4, hr3] at hl24
                        rw [List.length_drop] at hl72
                        rw [List.length_drop, List.length_drop] at hl24
                        omega

theorem protoBytes_length : protoBytes.length = 8 := rfl

/-- Claim C5 (confirmed).  If the 8 bytes read in phase 1 differ from
`zeolite1`, the handshake is exactly: write the tag, read 8 bytes, abort
with `ErrProto` - no key material is written and the trust predicate is
never called. -/
theorem proto_mismatch_aborts (ops : CryptoOps) (id : Identity)
    (cb : List Nat → Bool × Option GoError) (input : List Nat)
    (h8 : 8 ≤ input.length) (hne : input.take 8 ≠ protoBytes) :
    Identity.NewStream ops id cb input
      = ⟨[.wrote protoBytes, .readC (input.take 8)], .error .ErrProto⟩ := by
  unfold Identity.NewStream
  rw [hsRead_of_le input 8 h8]
  simp only []
  rw [if_neg hne]

/-- A peer input whose first 8 bytes are not the protocol tag. -/
def inputBad : List Nat := List.replicate 8 0

/-- Claim C5, witness at a concrete wrong tag. -/
theorem proto_mismatch_aborts_witness :
    Identity.NewStream trivialOps idEx cbAll inputBad
      = ⟨[.wrote protoBytes, .readC (inputBad.take 8)], .error .ErrProto⟩ :=
  proto_mismatch_aborts trivialOps idEx cbAll inputBad (by decide) (by decide)

/-- The wire shape of a successful handshake: the five written artifacts
in order with their lengths (total 232 bytes), the five reads as the
corresponding exact-length segments of the peer's input, and the input
being long enough (any short read fails the handshake, so success needs
all 232 peer bytes). -/
def hsWireGoal (id : Identity) (input : List Nat) (out : HsOut) : Prop :=
  ∃ m3 m4 m5,
    writtenOf out.events = [protoBytes, id.Public, m3, m4, m5]
    ∧ m3.length = 96 ∧ m4.length = 72 ∧ m5.length = 24
    ∧ (writtenOf out.events).flatten.length = 232
    ∧ readOf out.events
        = [input.take 8, (input.drop 8).take 32, ((input.drop 8).drop 32).take 96,
           (((input.drop 8).drop 32).drop 96).take 72,
           ((((input.drop 8).drop 32).drop 96).drop 72).take 24]
    ∧ 232 ≤ input.length

/-- Claim C4 (confirmed).  A successful handshake writes exactly the five
artifacts tag / public key / signed ephemeral / boxed symmetric key /
header of lengths 8, 32, 96, 72, 24 - 232 bytes in total - and reads the
peer's artifacts of identical lengths with exact-length reads. -/
theorem handshake_wire_totals (ops : CryptoOps) (id : Identity)
    (cb : List Nat → Bool × Option GoError) (input : List Nat) (st : Stream)
    (hpk : id.Public.length = 32)
    (hok : (Identity.NewStream ops id cb input).outcome = .ok st) :
    hsWireGoal id input (Identity.NewStream ops id cb input) := by
  cases h8 : hsRead input 8 with
  | none => simp only [Identity.NewStream, h8] at hok; cases hok
  | some p8 =>
    obtain ⟨got, rest1⟩ := p8
    obtain ⟨hgot, hrest1, hl8⟩ := hsRead_eq_some input 8 got rest1 h8
    subst hgot
    subst hrest1
    by_cases hgp : input.take 8 = protoBytes
    · cases h32 : hsRead (input.drop 8) 32 with
      | none => simp only [Identity.NewStream, h8, if_pos hgp, h32] at hok; cases hok
      | some p32 =>
        obtain ⟨opk, rest2⟩ := p32
        obtain ⟨hopk, hrest2, hl32⟩ := hsRead_eq_some (input.drop 8) 32 opk rest2 h32
        subst hopk
        subst hrest2
        by_cases htr : (cb ((input.drop 8).take 32)).2.isNone
            ∧ (cb ((input.drop 8).take 32)).1 = true
        · simp only [Identity.NewStream, h8, if_pos hgp, h32, if_pos htr] at hok
          obtain ⟨ephMsg, cipher, header, hevs, hl96, hl72c, hl24h, hlr2⟩ :=
            hsTail_ok_events ops id.Secret ((input.drop 8).take 32)
              ((input.drop 8).drop 32) st hok
          refine ⟨ephMsg, ops.boxNonce ++ cipher, header, ?_⟩
          have hnew : (Identity.NewStream ops id cb input).events
              = [.wrote protoBytes, .readC (input.take 8), .wrote id.Public,
                 .readC ((input.drop 8).take 32), .trustCall ((input.drop 8).take 32)]
                ++ (hsTail ops id.Secret ((input.drop 8).take 32)
                     ((input.drop 8).drop 32)).events := by
            simp only [Identity.NewStream, h8, if_pos hgp, h32, if_pos htr]
          simp only [List.length_drop] at hlr2 hl32
          have hwr : writtenOf (Identity.NewStream ops id cb input).events
              = [protoBytes, id.Public, ephMsg, ops.boxNonce ++ cipher, header] := by
            rw [writtenOf, hnew, hevs, List.filterMap_append]
            simp [writtenOf]
          have hnc : ops.boxNonce.length + cipher.length = 72 := by
            rw [List.length_append] at hl72c
            exact hl72c
          refine ⟨hwr, hl96, hl72c, hl24h, ?_, ?_, by omega⟩
          · rw [hwr]
            simp [protoBytes_length, hpk, hl96, hl24h]
            omega
          · rw [readOf, hnew, hevs, List.filterMap_append]
            simp [readOf, hgp]
        · simp only [Identity.NewStream, h8, if_pos hgp, h32, if_neg htr] at hok
          cases hok
    · simp only [Identity.NewStream, h8, if_neg hgp] at hok
      cases hok

/-- The stream a successful `trivialOps` handshake returns on `inputEx`. -/
def streamEx : Stream := ⟨⟨[], []⟩, List.replicate 32 9, ⟨0, 0⟩, ⟨0, 0⟩⟩

/-- Claim C4, witness: a concrete successful handshake with the claimed
wire shape. -/
theorem handshake_wire_totals_witness :
    (Identity.NewStream trivialOps idEx cbAll inputEx).outcome = .ok streamEx
    ∧ hsWireGoal idEx inputEx (Identity.NewStream trivialOps idEx cbAll inputEx) :=
  ⟨by decide,
   handshake_wire_totals trivialOps idEx cbAll inputEx streamEx (by decide) (by decide)⟩

/-- Once phases 1 and 2 have completed, the handshake's event trace starts
with exactly: write tag, read tag, write own key, read peer key, call the
trust predicate - so the predicate runs after the peer's 32-byte key was
read and before the ephemeral keygen or any symmetric-key event, which can
only occur in `rest`; `rest` contains no further trust call; and if the
predicate rejects (an error or `false`), `rest` is empty - nothing further
is written - and the handshake returns `ErrTrust`. -/
def trustOnceGoal (ops : CryptoOps) (id : Identity)
    (cb : List Nat → Bool × Option GoError) (input : List Nat) : Prop :=
  ∃ rest,
    (Identity.NewStream ops id cb input).events
      = [.wrote protoBytes, .readC protoBytes, .wrote id.Public,
         .readC ((input.drop 8).take 32), .trustCall ((input.drop 8).take 32)] ++ rest
    ∧ trustCallCount rest = 0
    ∧ ((cb ((input.drop 8).take 32)).2.isSome
        ∨ (cb ((input.drop 8).take 32)).1 = false →
        rest = [] ∧ (Identity.NewStream ops id cb input).outcome = .error .ErrTrust)

/-- Claim C3 (confirmed).  Every handshake run invokes the trust predicate
at most once, and as soon as the protocol tag and identity exchange have
succeeded it is invoked exactly once - immediately after the peer's
long-term public key was read, before the ephemeral keypair is generated
or any symmetric key material is exchanged - and a rejection aborts with
`ErrTrust` without writing another byte. -/
theorem trust_called_once (ops : CryptoOps) (id : Identity)
    (cb : List Nat → Bool × Option GoError) (input : List Nat) :
    trustCallCount (Identity.NewStream ops id cb input).events ≤ 1
    ∧ (input.take 8 = protoBytes → 40 ≤ input.length →
        trustOnceGoal ops id cb input) := by
  constructor
  · cases h8 : hsRead input 8 with
    | none => simp [Identity.NewStream, h8, trustCallCount]
    | some p8 =>
      obtain ⟨got, rest1⟩ := p8
      by_cases hgp : got = protoBytes
      · cases h32 : hsRead rest1 32 with
        | none => simp [Identity.NewStream, h8, if_pos hgp, h32, trustCallCount]
        | some p32 =>
          obtain ⟨opk, rest2⟩ := p32
          have h0 := hsTail_no_trust ops id.Secret opk rest2
          rw [trustCallCount] at h0
          simp only [Identity.NewStream, h8, if_pos hgp, h32]
          split
          · simp [trustCallCount, List.countP_cons, h0]
          · simp [trustCallCount]
      · simp [Identity.NewStream, h8, if_neg hgp, trustCallCount]
  · intro hproto hlen
    have h8 := hsRead_of_le input 8 (by omega)
    have h32 := hsRead_of_le (input.drop 8) 32 (by rw [List.length_drop]; omega)
    by_cases htr : (cb ((input.drop 8).take 32)).2.isNone
        ∧ (cb ((input.drop 8).take 32)).1 = true
    · refine ⟨(hsTail ops id.Secret ((input.drop 8).take 32)
          ((input.drop 8).drop 32)).events, ?_, hsTail_no_trust _ _ _ _, ?_⟩
      · simp only [Identity.NewStream, h8, if_pos hproto, h32, if_pos htr]
        rw [hproto]
      · intro habs
        exfalso
        rcases habs with habs | habs
        · rw [Option.isSome_iff_exists] at habs
          obtain ⟨e, he⟩ := habs
          rw [he] at htr
          cases htr.1
        · rw [habs] at htr
          cases htr.2
    · refine ⟨[], ?_, rfl, ?_⟩
      · simp only [Identity.NewStream, h8, if_pos hproto, h32, if_neg htr]
        rw [hproto, List.append_nil]
      · intro _
        constructor
        · rfl
        · simp only [Identity.NewStream, h8, if_pos hproto, h32, if_neg htr]

/-- Claim C3, witness at a concrete accepting handshake. -/
theorem trust_called_once_witness :
    trustCallCount (Identity.NewStream trivialOps idEx cbAll inputEx).events ≤ 1
    ∧ trustOnceGoal trivialOps idEx cbAll inputEx :=
  ⟨(trust_called_once trivialOps idEx cbAll inputEx).1,
   (trust_called_once trivialOps idEx cbAll inputEx).2 (by decide) (by decide)⟩

end Zeolite
